import Mathlib

/-!
Verification of the reduplication parser (`parse_redup.py`).

The program manipulates nested Python lists whose atoms are strings
(node labels, later `label\nfeatures...\nphonology` after vocabulary
insertion).  We embed those nested lists as the mutual inductive
`Sexp` / `SexpList` below (a Python list is a `SexpList`; a Python
string is `Sexp.s`).  Python functions that can call `sys.exit`, raise
`IndexError` / `KeyError` / `NameError`, or loop forever are embedded
as `Option`-valued functions (`none` = abnormal termination), with
unbounded `while` loops given explicit fuel.  Dictionaries are embedded
as association lists with Python's insertion-order semantics.
-/

namespace ParseRedup

mutual
inductive Sexp where
  | s : String → Sexp
  | l : SexpList → Sexp
inductive SexpList where
  | nil : SexpList
  | cons : Sexp → SexpList → SexpList
end

/-- Build a `SexpList` from a Lean list literal. -/
def SexpList.ofList : List Sexp → SexpList
  | [] => .nil
  | x :: rest => .cons x (SexpList.ofList rest)

/-- Length of an embedded Python list. -/
def SexpList.length : SexpList → Nat
  | .nil => 0
  | .cons _ rest => rest.length + 1

/-- Concatenation of embedded Python lists. -/
def SexpList.app : SexpList → SexpList → SexpList
  | .nil, ys => ys
  | .cons x rest, ys => .cons x (rest.app ys)

/-- Python slice `lst[:k]` on an embedded list. -/
def SexpList.take : SexpList → Nat → SexpList
  | .nil, _ => .nil
  | .cons _ _, 0 => .nil
  | .cons x rest, k + 1 => .cons x (rest.take k)

/-- Python slice `lst[-1:]` on an embedded list: the last element as a singleton. -/
def SexpList.lastSlice : SexpList → SexpList
  | .nil => .nil
  | .cons x .nil => .cons x .nil
  | .cons _ (.cons y rest) => SexpList.lastSlice (.cons y rest)

/-- Python indexing `lst[k]` on an embedded list, `none` out of range. -/
def SexpList.get? : SexpList → Nat → Option Sexp
  | .nil, _ => none
  | .cons x _, 0 => some x
  | .cons _ rest, k + 1 => rest.get? k

/-- In-place update `lst[k] = f lst[k]` (no effect out of range). -/
def SexpList.modify : SexpList → Nat → (Sexp → Sexp) → SexpList
  | .nil, _, _ => .nil
  | .cons x rest, 0, f => .cons (f x) rest
  | .cons x rest, k + 1, f => .cons x (rest.modify k f)

/-- Is the element a Python list? (`isinstance(x, list)`). -/
def Sexp.isList : Sexp → Bool
  | .s _ => false
  | .l _ => true

/-- The vowel inventory `VOWEL_LST` of the source. -/
def VOWEL_LST : List Char := ['a', 'e', 'i', 'o', 'u']

mutual
/-- Function `flatten` of the source (string atoms of a nested list, left to right). -/
def flattenS : Sexp → List String
  | .s v => [v]
  | .l xs => flattenL xs
/-- Function `flatten` on an embedded Python list. -/
def flattenL : SexpList → List String
  | .nil => []
  | .cons x rest => flattenS x ++ flattenL rest
end

/--
Function `find_embedded_index` of the source.  The Python function exits the
whole program (`sys.exit(1)`) as soon as the element is not found in the
list currently being searched — including inside a recursive call on an
earlier sublist, even when the element occurs in a later sibling.  `none`
models that fatal exit.
-/
def find_embedded_index : SexpList → String → Option (List Nat)
  | .nil, _ => none
  | .cons (.l xs) _, elem =>
      match find_embedded_index xs elem with
      | some r => some (0 :: r)
      | none => none
  | .cons (.s v) rest, elem =>
      if v = elem then some [0]
      else
        match find_embedded_index rest elem with
        | some [] => some []
        | some (i :: r) => some ((i + 1) :: r)
        | none => none

/--
Loop body of `unprocessed_psr_in_structure` over the elements of a
structure already known not to be a singleton: a length-one sublist
anywhere yields `true` (the singleton check of the recursive Python call
on a non-singleton element is vacuous, so the recursion goes straight
back to the element loop).
-/
def unprocessed_any : SexpList → Bool
  | .nil => false
  | .cons (.s _) rest => unprocessed_any rest
  | .cons (.l xs) rest =>
      (if xs.length = 1 then true else unprocessed_any xs) || unprocessed_any rest

/--
Function `unprocessed_psr_in_structure` of the source: is there a length-one list
anywhere in the structure (the whole structure included)?
-/
def unprocessed_psr_in_structure (lst : SexpList) : Bool :=
  if lst.length = 1 then true else unprocessed_any lst

/-- Function `is_rule_list` of the source (is the element about to be unpacked a list?). -/
def is_rule_list (inner : SexpList) (embedded_index : List Nat) : Bool :=
  if embedded_index.length = 1 then
    match inner.get? 0 with
    | some e => e.isList
    | none => false
  else
    match inner.get? (embedded_index.getD (embedded_index.length - 2) 0) with
    | some e => e.isList
    | none => false

/--
The slice assignment shared by `add_leaf_at_rule` / `add_branches_at_rule`:
`inner[k:] = [node]` when `k` is the last index, else `inner[k:-1] = [node]`
(which keeps the final element of `inner`).
-/
def splice_at (inner : SexpList) (k : Nat) (node : Sexp) : SexpList :=
  if k = inner.length - 1 then (inner.take k).app (.cons node .nil)
  else ((inner.take k).app (.cons node .nil)).app inner.lastSlice

/-- Function `add_leaf_at_rule` of the source (unary rule, `[rule, leaf[0]]`). -/
def add_leaf_at_rule (inner : SexpList) (k : Nat) (leaf : List Sexp) (rule : String) : SexpList :=
  splice_at inner k (.l (.cons (.s rule) (.cons (leaf.headD (.s "")) .nil)))

/-- Function `add_branches_at_rule` of the source (binary rule, `[rule, b[0], b[1]]`). -/
def add_branches_at_rule (inner : SexpList) (k : Nat) (branches : List Sexp) (rule : String) :
    SexpList :=
  splice_at inner k
    (.l (.cons (.s rule) (.cons (branches.headD (.s "")) (.cons (branches.getD 1 (.s "")) .nil))))

/-- Walk `inner = inner[i]` along a path of indices (must pass through lists). -/
def getListAt : SexpList → List Nat → Option SexpList
  | xs, [] => some xs
  | xs, i :: rest =>
      match xs.get? i with
      | some (.l ys) => getListAt ys rest
      | _ => none

/-- Rebuild the structure after mutating the sublist reached along `path`. -/
def updateAt : List Nat → (SexpList → SexpList) → SexpList → SexpList
  | [], f, xs => f xs
  | i :: rest, f, xs =>
      xs.modify i fun e =>
        match e with
        | .l ys => .l (updateAt rest f ys)
        | .s v => .s v

/--
One iteration of the `for rule in all_psr` body inside
`create_base_structure`: if `rule` occurs in the flattened structure,
locate it, and either extend the length-one top node or unpack the rule
in place when the located element is a list.  `none` models the fatal
exit of `find_embedded_index` and the `IndexError` on
`embedded_index[-2]` when the located path has length one.
-/
def apply_psr_rule (base : SexpList) (rule : String) (rhs : List Sexp) : Option SexpList :=
  if rule ∈ flattenL base then do
    let ei ← find_embedded_index base rule
    if base.length = 1 then
      pure (base.app (SexpList.ofList rhs))
    else do
      let inner ← getListAt base (ei.take (ei.length - 2))
      if is_rule_list inner ei then
        if 2 ≤ ei.length then
          let k := ei.getD (ei.length - 2) 0
          if rhs.length = 1 then
            pure (updateAt (ei.take (ei.length - 2)) (fun inn => add_leaf_at_rule inn k rhs rule) base)
          else if rhs.length = 2 then
            pure (updateAt (ei.take (ei.length - 2))
              (fun inn => add_branches_at_rule inn k rhs rule) base)
          else
            pure base
        else
          none
      else
        pure base
  else
    pure base

/-- One full pass of the `for rule in all_psr` loop. -/
def psr_pass (all_psr : List (String × List Sexp)) (base : SexpList) : Option SexpList :=
  all_psr.foldlM (fun b rr => apply_psr_rule b rr.1 rr.2) base

/--
Function `create_base_structure` of the source.  The `while
unprocessed_psr_in_structure` loop is given explicit fuel; `none` models
both a fatal exit inside the loop body and a loop that does not
terminate within the given fuel.
-/
def create_base_structure : Nat → List (String × List Sexp) → SexpList → Option SexpList
  | 0, _, _ => none
  | fuel + 1, all_psr, base =>
      if unprocessed_psr_in_structure base then
        match psr_pass all_psr base with
        | some b2 => create_base_structure fuel all_psr b2
        | none => none
      else
        some base

/-! ### String and dictionary helpers

Python string operations (`split('\n')`, `'\n'.join`, `''.join`,
`strip('*')`, `count('*')`, substring search) and dictionaries are
embedded by the following executable helpers.
-/

/-- Python `s.split('\n')` on a character list. -/
def splitCharListNl : List Char → List (List Char)
  | [] => [[]]
  | c :: rest =>
      if c = '\n' then [] :: splitCharListNl rest
      else
        match splitCharListNl rest with
        | [] => [[c]]
        | h :: t => (c :: h) :: t

/-- Python string splitting `s.split('\n')`. -/
def splitNl (s : String) : List String := (splitCharListNl s.toList).map String.mk

/-- Python membership test of a newline in a string. -/
def hasNl (s : String) : Bool := s.toList.any fun c => decide (c = '\n')

/-- Python joining of a string list with newlines. -/
def joinWithNl : List String → String
  | [] => ""
  | [x] => x
  | x :: y :: rest => x ++ "\n" ++ joinWithNl (y :: rest)

/-- Python concatenation of a string list. -/
def joinAll : List String → String
  | [] => ""
  | x :: rest => x ++ joinAll rest

/-- Python `s.count('*')`. -/
def countStars (s : String) : Nat := s.toList.countP fun c => decide (c = '*')

/-- Drop leading `'*'` characters. -/
def dropStarsLeft : List Char → List Char
  | [] => []
  | c :: rest => if c = '*' then dropStarsLeft rest else c :: rest

/-- Python `s.strip('*')` (both ends). -/
def stripStars (s : String) : String :=
  String.mk ((dropStarsLeft (dropStarsLeft s.toList).reverse).reverse)

/-- Does `hay` start with `needle`? -/
def listStartsWith : List Char → List Char → Bool
  | _, [] => true
  | [], _ :: _ => false
  | a :: as, b :: bs => decide (a = b) && listStartsWith as bs

/-- Python substring test `needle in hay` (contiguous). -/
def listHasInfix (hay needle : List Char) : Bool :=
  if listStartsWith hay needle then true
  else
    match hay with
    | [] => false
    | _ :: t => listHasInfix t needle

/--
Function `find_all_indices` of the source: all indices at which `environment`
occurs in `word` (the Python loop advances by one after each hit, so
overlapping occurrences are all reported, in increasing order).
-/
def find_all_indices (word environment : String) : List Nat :=
  (List.range (word.length + 1)).filter fun i =>
    listStartsWith (word.toList.drop i) environment.toList

/-- Python dict lookup `d[k]` (`none` = `KeyError`). -/
def dictLookup {α : Type} : List (String × α) → String → Option α
  | [], _ => none
  | (k2, v) :: rest, k => if k2 = k then some v else dictLookup rest k

/--
Python dict assignment `d[k] = v`: overwrite in place when the key
exists (keys are unique, so the first hit is the only one), otherwise
append at the end (insertion order).
-/
def dictSet {α : Type} : List (String × α) → String → α → List (String × α)
  | [], k, v => [(k, v)]
  | (k2, w) :: rest, k, v =>
      if k2 = k then (k2, v) :: rest else (k2, w) :: dictSet rest k v

/-- A vocabulary-rule table: label to `[features..., phonology]`. -/
def ViRules : Type := List (String × List String)

/-! ### Reduplication injection -/

/--
Function `reduplicate_environments` of the source.  `none` models the
`IndexError` raised by `root[0]` when the root string is empty and the
environment is `"VOWEL"`.
-/
def reduplicate_environments (environment : String) (root : String) : Option Bool :=
  if environment = "" then some true
  else if environment = "VOWEL" then
    match root.toList with
    | [] => none
    | c :: _ => some (decide (c ∈ VOWEL_LST))
  else some false

/--
The splice performed by `reduplicate_base_structure` once a target is
accepted: walk to `embedded_index[:-2]` and replace the element at
`embedded_index[-2]` (the sublist whose head is the target label) with
`['REDP', 'RED', <original element>]`.  `none` models the `IndexError`
on `embedded_index[-2]` when the path has length below two.
-/
def insert_redp (base : SexpList) (ei : List Nat) : Option SexpList :=
  if 2 ≤ ei.length then
    some (updateAt (ei.take (ei.length - 2))
      (fun inner => inner.modify (ei.getD (ei.length - 2) 0) fun sub =>
        .l (.cons (.s "REDP") (.cons (.s "RED") (.cons sub .nil))))
      base)
  else none

/-- Loop body of `reduplicate_base_structure` with accumulator. -/
def rbs_go (base : SexpList) (root : String) :
    List (String × String) → List SexpList → Option (List SexpList)
  | [], acc => some acc
  | (node, environment) :: rest, acc =>
      match reduplicate_environments environment root with
      | none => none
      | some b =>
          if b then
            match find_embedded_index base node with
            | none => none
            | some ei =>
                match insert_redp base ei with
                | none => none
                | some t => rbs_go base root rest (acc ++ [t])
          else rbs_go base root rest acc

/--
Function `reduplicate_base_structure` of the source: one deep-copied variant per
target whose environment predicate accepts the root (the deep copy is
value semantics here).
-/
def reduplicate_base_structure (base : SexpList) (dominated_nodes : List (String × String))
    (root : String) : Option (List SexpList) :=
  rbs_go base root dominated_nodes []

/-! ### Vocabulary insertion -/

mutual
/-- Function `find_deepest_depth` of the source. -/
def find_deepest_depth : Sexp → Nat
  | .s _ => 0
  | .l xs => find_deepest_depth_list xs + 1
/-- Maximum of `find_deepest_depth` over the elements (0 when empty). -/
def find_deepest_depth_list : SexpList → Nat
  | .nil => 0
  | .cons x rest => max (find_deepest_depth x) (find_deepest_depth_list rest)
end

mutual
/--
Function `mark_depth_for_vi` of the source: append `depth` copies of `*` to every
string that is a vocabulary key or `RED`; list elements are marked with
`depth - 1` (Python's negative repeat counts collapse to the empty
string exactly like truncated `Nat` subtraction).
-/
def mark_depth_for_vi (viKeys : List String) : Sexp → Nat → Sexp
  | .l xs, depth => .l (mark_depth_list viKeys xs depth)
  | .s v, depth =>
      if v ∈ viKeys ∨ v = "RED" then .s (v ++ String.mk (List.replicate depth '*'))
      else .s v
/-- Function `mark_depth_for_vi` over the elements of a list (each at `depth - 1`). -/
def mark_depth_list (viKeys : List String) : SexpList → Nat → SexpList
  | .nil, _ => .nil
  | .cons x rest, depth => .cons (mark_depth_for_vi viKeys x (depth - 1)) (mark_depth_list viKeys rest depth)
end

/-- Python `elem in lst` for a string against an embedded list's elements. -/
def sexpListContainsStr : SexpList → String → Bool
  | .nil, _ => false
  | .cons (.s v) rest, t => if v = t then true else sexpListContainsStr rest t
  | .cons (.l _) rest, t => sexpListContainsStr rest t

mutual
/-- Function `depth_at_red` of the source: does `RED` followed by `depth` stars occur? -/
def depth_at_red (depth : Nat) : Sexp → Bool
  | .s _ => false
  | .l xs =>
      sexpListContainsStr xs ("RED" ++ String.mk (List.replicate depth '*')) ||
        depth_at_red_list depth xs
/-- Function `depth_at_red` over the elements of a list. -/
def depth_at_red_list (depth : Nat) : SexpList → Bool
  | .nil => false
  | .cons x rest => depth_at_red depth x || depth_at_red_list depth rest
end

mutual
/--
Function `replace_stars_with_vi` of the source: a string whose star count equals
the current depth is replaced by `label + '\n' + features/phonology`
from its vocabulary entry.  `none` models the `KeyError` on a missing
entry and the `IndexError` on `out_rule[0]` when the joined entry is
empty.
-/
def replace_stars_with_vi (vi : List (String × List String)) (current_depth : Nat) :
    Sexp → Option Sexp
  | .l xs =>
      match replace_stars_list vi current_depth xs with
      | some ys => some (.l ys)
      | none => none
  | .s v =>
      if countStars v = current_depth then
        match dictLookup vi (stripStars v) with
        | none => none
        | some rule =>
          let out_rule := joinWithNl rule
          match out_rule.toList with
          | [] => none
          | c :: _ =>
              some (.s (stripStars v ++ (if c ≠ '\n' then "\n" ++ out_rule else out_rule)))
      else some (.s v)
/-- Function `replace_stars_with_vi` over the elements of a list. -/
def replace_stars_list (vi : List (String × List String)) (current_depth : Nat) :
    SexpList → Option SexpList
  | .nil => some .nil
  | .cons x rest =>
      match replace_stars_with_vi vi current_depth x, replace_stars_list vi current_depth rest with
      | some y, some ys => some (.cons y ys)
      | _, _ => none
end

/--
Function `is_vowel_initial` of the source, applied to an already-split item: does
the phonological material (last line) start with a vowel?  `none` models
the `IndexError` on an empty phonological string.
-/
def is_vowel_initial (item : List String) : Option Bool :=
  match (item.getLastD "").toList with
  | [] => none
  | c :: _ => some (decide (c ∈ VOWEL_LST))

/--
The inner character loop of `add_vi_rule_redup` for `scope ==
'bisyllabic'`: copy characters, counting vowels from zero for this item,
and flip `template_filled` as soon as two vowels have been consumed
(breaking before the next character).
-/
def take_bisyllabic : List Char → Nat → Bool → String → String × Bool
  | [], _, template_filled, acc => (acc, template_filled)
  | c :: rest, vowel_count, template_filled, acc =>
      if template_filled then (acc, template_filled)
      else
        let acc2 := acc.push c
        let vc2 := if c ∈ VOWEL_LST then vowel_count + 1 else vowel_count
        let filled2 := if 2 ≤ vc2 then true else template_filled
        take_bisyllabic rest vc2 filled2 acc2

/--
The item loop of `add_vi_rule_redup`: walk the flattened structure,
copying phonological material from every already-lexicalized item
(those containing a newline).  The first lexicalized item fixes `node`
and `vowel_initial` (`none` models the `IndexError` of
`is_vowel_initial` there).  The loop stops after the item that fills the
bisyllabic template.  Returns `(content, first-node info, filled)`.
-/
def redup_scan (scope : String) :
    List String → String → Option (String × Bool) → Bool →
    Option (String × Option (String × Bool) × Bool)
  | [], content, first_info, filled => some (content, first_info, filled)
  | item :: rest, content, first_info, filled =>
      if hasNl item then
        let parts := splitNl item
        let phon := parts.getLastD ""
        let step : Option (Option (String × Bool)) :=
          match first_info with
          | none =>
              match is_vowel_initial parts with
              | none => none
              | some vi => some (some (parts.headD "", vi))
          | some p => some (some p)
        match step with
        | none => none
        | some first2 =>
            let (content2, filled2) :=
              if scope = "bisyllabic" then take_bisyllabic phon.toList 0 filled content
              else (content ++ phon, filled)
            if filled2 then some (content2, first2, filled2)
            else redup_scan scope rest content2 first2 filled2
      else
        if filled then some (content, first_info, filled)
        else redup_scan scope rest content first_info filled

/--
Function `add_vi_rule_redup` of the source: compute the reduplicant's vocabulary
entry from the already-lexicalized items of the flattened structure,
append epenthesis according to the environment, and store it under
`RED`.  `none` models the `IndexError` inside `is_vowel_initial` and the
`NameError` on `vowel_initial` / `node` when no lexicalized item exists
but the epenthesis branch needs them.
-/
def add_vi_rule_redup (data : List String) (vi_rules : List (String × List String))
    (scope epenthesis environment : String) : Option (List (String × List String)) :=
  match redup_scan scope data "" none false with
  | none => none
  | some (content, first_info, _) =>
      match (if epenthesis ≠ "" then
               if environment = "VOWEL" then
                 match first_info with
                 | none => none
                 | some (node, vowel_initial) =>
                     if vowel_initial = true ∧ node = "V" then some (content ++ epenthesis)
                     else some content
               else some (content ++ epenthesis)
             else some content) with
      | none => none
      | some content2 => some (dictSet vi_rules "RED" ["", content2])

/-! ### Phonological word extraction -/

/--
The item loop of `get_phonological_word`: build the morpheme dictionary
(label to phonological string, later entries overwriting earlier ones
with the same label) and remember the last lexicalized item's
`(node, phonology)` pair — the loop variables that survive the loop.
-/
def gpw_fold : List String → List (String × String) → Option (String × String) →
    List (String × String) × Option (String × String)
  | [], d, last_pair => (d, last_pair)
  | item :: rest, d, last_pair =>
      if hasNl item then
        let parts := splitNl item
        gpw_fold rest (dictSet d (parts.headD "") (parts.getLastD ""))
          (some (parts.headD "", parts.getLastD ""))
      else gpw_fold rest d last_pair

/-- Function `get_phonological_word` of the source with `expand=False`. -/
def get_phonological_word (final_vi_data : SexpList) : String :=
  joinAll ((gpw_fold (flattenL final_vi_data) [] none).1.map Prod.snd)

/--
Function `get_phonological_word(data, expand=True)` of the source: also return
the last item's phonology and node plus the morpheme dictionary.
`none` models the `NameError` when no lexicalized item exists.
-/
def gpw_expand (final_vi_data : SexpList) :
    Option (String × String × List (String × String) × String) :=
  match gpw_fold (flattenL final_vi_data) [] none with
  | (d, some (node, phon)) => some (phon, node, d, joinAll (d.map Prod.snd))
  | (_, none) => none

/-- The morpheme loop of `extract_final_derivation` with accumulator. -/
def efd_fold : List String → String → String
  | [], acc => acc
  | m :: rest, acc =>
      efd_fold rest (if hasNl m then acc ++ (splitNl m).getLastD "" else acc)

/-- Function `extract_final_derivation` of the source. -/
def extract_final_derivation (in_lst : SexpList) : String :=
  efd_fold (flattenL in_lst) ""

/-! ### Phonological rewrite engine -/

mutual
/--
Function `find_and_replace_element` of the source: every string atom whose first
and last lines match the target's is rebuilt with an edited phonological
string.  The four edit modes mirror the source: separate-node initial
(replace the last character, `IndexError` on an empty string), separate
node non-initial (splice the replacement over the first characters),
same-node initial / non-initial (assign at `index_to_replace.initial` /
`.final`; `none` models the `IndexError` of a list assignment out of
range and the `AttributeError` when `index_to_replace` is `None`).
-/
def find_and_replace_element (target replacement : String)
    (is_separate_node is_initial_node : Bool) (index_to_replace : Option (Nat × Nat)) :
    Sexp → Option Sexp
  | .l xs =>
      match fare_list target replacement is_separate_node is_initial_node index_to_replace xs with
      | some ys => some (.l ys)
      | none => none
  | .s data =>
      let data_lst := splitNl data
      if [data_lst.headD "", data_lst.getLastD ""] = splitNl target then
        let node := data_lst.headD ""
        let additional_material := (data_lst.drop 1).dropLast
        let phon_string := (data_lst.getLastD "").toList
        let replace_phon_string := ((splitNl replacement).getLastD "").toList
        let phon2 : Option (List Char) :=
          if is_separate_node then
            if is_initial_node then
              match phon_string with
              | [] => none
              | _ => some (phon_string.dropLast ++ replace_phon_string)
            else some (replace_phon_string ++ phon_string.drop replace_phon_string.length)
          else
            match index_to_replace with
            | none => none
            | some p =>
                if is_initial_node then
                  if p.1 < phon_string.length then
                    some (phon_string.take p.1 ++ replace_phon_string ++
                      phon_string.drop (p.1 + 1))
                  else none
                else
                  if p.2 < phon_string.length then
                    some (phon_string.take p.2 ++ replace_phon_string ++
                      phon_string.drop (p.2 + 1))
                  else none
        match phon2 with
        | none => none
        | some phonF =>
            let additionalS := joinWithNl additional_material
            if additionalS ≠ "" then
              some (.s (node ++ "\n" ++ additionalS ++ "\n" ++ String.mk phonF))
            else some (.s (node ++ "\n" ++ String.mk phonF))
      else some (.s data)
/-- Function `find_and_replace_element` over the elements of an embedded list. -/
def fare_list (target replacement : String) (is_separate_node is_initial_node : Bool)
    (index_to_replace : Option (Nat × Nat)) : SexpList → Option SexpList
  | .nil => some .nil
  | .cons x rest =>
      match find_and_replace_element target replacement is_separate_node is_initial_node
          index_to_replace x,
        fare_list target replacement is_separate_node is_initial_node index_to_replace rest with
      | some y, some ys => some (.cons y ys)
      | _, _ => none
end

/--
The function-scoped locals of `apply_phonological_processes` that are
written by the first match branch and read by the second
(`second_changed_phoneme`, `is_separate_node`, `index_to_replace`).
They persist across loop iterations and across rules.
-/
structure Sticky where
  second : String
  isSep : Bool
  idx : Option (Nat × Nat)

/-- The mutable state of the character loop of `apply_phonological_processes`. -/
structure PhonoSt where
  count : Nat
  idxs : List Nat
  sticky : Option Sticky
  out : SexpList

/--
One character step of `apply_phonological_processes`: branch one fires
when the running flat position `count` is a match index (edit the
current leaf's character to the rule's first segment, always with
`is_initial_node = True`, and with `index_to_replace` built from the
*first remaining* match index `indices[0]`); branch two fires when
`count - 1` is a match index (edit to the second segment using the
sticky locals, then remove that index).  `none` models the `IndexError`
on a rule with fewer than two segments, the `NameError` when the sticky
locals were never set, and any failure inside
`find_and_replace_element`.
-/
def phono_char_step (rule : List String) (node phon : String) (i : Nat) (st : PhonoSt) :
    Option PhonoSt := do
  let st1 ←
    if st.count ∈ st.idxs then do
      let first_changed ← rule[0]?
      let second_changed ← rule[1]?
      let target := node ++ "\n" ++ phon
      let replacement := node ++ "\n" ++ first_changed
      let pair : Bool × Option (Nat × Nat) :=
        if i = phon.length - 1 then (true, none)
        else (false, some (st.idxs.headD 0, st.idxs.headD 0 + first_changed.length))
      match fare_list target replacement pair.1 true pair.2 st.out with
      | none => none
      | some out2 =>
          some { st with out := out2, sticky := some ⟨second_changed, pair.1, pair.2⟩ }
    else some st
  let st2 ←
    if 1 ≤ st1.count ∧ (st1.count - 1) ∈ st1.idxs then do
      let stk ← st1.sticky
      let target := node ++ "\n" ++ phon
      let replacement := node ++ "\n" ++ stk.second
      match fare_list target replacement stk.isSep false stk.idx st1.out with
      | none => none
      | some out2 =>
          some { st1 with out := out2, idxs := st1.idxs.erase (st1.count - 1) }
    else some st1
  pure { st2 with count := st2.count + 1 }

/-- The character loop over one morpheme's phonological string. -/
def phono_morph (rule : List String) (node phon : String) (st : PhonoSt) : Option PhonoSt :=
  (List.range phon.length).foldlM (fun s i => phono_char_step rule node phon i s) st

/--
Processing of one phonological rule inside
`apply_phonological_processes`: skip unless the environment occurs in
the flat word (computed once from the input), then walk every morpheme
and character with a fresh `count` and fresh match indices, while the
sticky locals and the output structure carry over.
-/
def phono_env (morphemes : List (String × String)) (environment : String) (rule : List String)
    (word : String) (out : SexpList) (sticky : Option Sticky) :
    Option (SexpList × Option Sticky) :=
  if listHasInfix word.toList environment.toList then do
    let stF ← morphemes.foldlM (fun s (np : String × String) => phono_morph rule np.1 np.2 s)
      (PhonoSt.mk 0 (find_all_indices word environment) sticky out)
    pure (stF.out, stF.sticky)
  else pure (out, sticky)

/--
Function `apply_phonological_processes` of the source: one full pass over all
rules and all matches, editing a copy of the input structure.  The flat
word and the morpheme dictionary are computed once from the input, so
edits made by earlier rules (or earlier matches) are not seen by later
targets.  `none` models the `NameError` of `expand=True` on a structure
with no lexicalized item and any abnormal step.
-/
def apply_phonological_processes (final_vi_data : SexpList)
    (phonological_rules : List (String × List String)) : Option SexpList :=
  match gpw_expand final_vi_data with
  | none => none
  | some (_, _, morphemes, word) =>
      match phonological_rules.foldlM
          (fun (acc : SexpList × Option Sticky) (er : String × List String) =>
            phono_env morphemes er.1 er.2 word acc.1 acc.2)
          (final_vi_data, (none : Option Sticky)) with
      | none => none
      | some (out, _) => some out

/-- The loop guard of `apply_vi_rules`: does any rule environment occur in the flat word? -/
def hasEnvMatch (t : SexpList) (phonological_rules : List (String × List String)) : Bool :=
  phonological_rules.any fun er => listHasInfix (get_phonological_word t).toList er.1.toList

/--
The `while any(environment in phonological_word ...)` loop of
`apply_vi_rules`, with fuel: repeatedly apply
`apply_phonological_processes` until no environment occurs.  `none`
models a failing pass and a loop that does not terminate within the
fuel.
-/
def phono_fix_loop : Nat → SexpList → List (String × List String) → Option SexpList
  | 0, _, _ => none
  | fuel + 1, t, rules =>
      if hasEnvMatch t rules then
        match apply_phonological_processes t rules with
        | some t2 => phono_fix_loop fuel t2 rules
        | none => none
      else some t

/--
Function `apply_vi_rules` of the source: mark the tree with depth stars, then for
each cycle from 1 to depth−1 compute the reduplicant entry when `RED` is
due, insert the due vocabulary items, and record the snapshot; finally
run the phonological loop on the last snapshot (replacing it) and append
it once more.
-/
def apply_vi_rules (fuel : Nat) (syntactic_data : SexpList)
    (vi_rules : List (String × List String))
    (phonological_rules : List (String × List String))
    (scope epenthesis environment : String) : Option (List SexpList) := do
  let depth := find_deepest_depth (.l syntactic_data) + 1
  let marked := mark_depth_list (vi_rules.map Prod.fst) syntactic_data depth
  let (_, _, acc) ← (List.range' 1 (depth - 1)).foldlM
      (fun (st : List (String × List String) × SexpList × List SexpList) i => do
        let (vi, m, acc) := st
        let vi2 ←
          if depth_at_red i (.l m) then
            add_vi_rule_redup (flattenL m) vi scope epenthesis environment
          else some vi
        let m2 ← replace_stars_list vi2 i m
        pure (vi2, m2, acc ++ [m2]))
      (vi_rules, marked, [])
  match acc.getLast? with
  | none => none
  | some lastT => do
      let fixed ← phono_fix_loop fuel lastT phonological_rules
      pure (acc.dropLast ++ [fixed, fixed])

/-! ### Specification-side definitions

The following definitions do not embed source code; they state, in
independent terms, the properties the claims talk about (tree positions,
the lexicalized-leaf projection, the bisyllabic template).
-/

/-- Read the element of a structure at a path of child indices. -/
def getAtPath : SexpList → List Nat → Option Sexp
  | _, [] => none
  | xs, [k] => xs.get? k
  | xs, k :: rest =>
      match xs.get? k with
      | some (.l ys) => getAtPath ys rest
      | _ => none

/-- Replace the element of a structure at a path of child indices. -/
def modifyAtPath : List Nat → (Sexp → Sexp) → SexpList → SexpList
  | [], _, xs => xs
  | [k], g, xs => xs.modify k g
  | k :: rest, g, xs =>
      xs.modify k fun e =>
        match e with
        | .l ys => .l (modifyAtPath rest g ys)
        | .s v => .s v

/-- Is the first path an initial segment of the second? -/
def pathPre : List Nat → List Nat → Bool
  | [], _ => true
  | _ :: _, [] => false
  | a :: p, b :: q => decide (a = b) && pathPre p q

/-- The `[REDP, RED, _]` wrapper inserted by the Reduplication Injector. -/
def redpWrap (sub : Sexp) : Sexp :=
  .l (.cons (.s "REDP") (.cons (.s "RED") (.cons sub .nil)))

/--
The lexicalized items of a flattened structure, as `(label, phonology)`
pairs in left-to-right order (an item is lexicalized when it contains a
newline; its label is the first line and its phonology the last).
-/
def lexPairs (items : List String) : List (String × String) :=
  items.filterMap fun m =>
    if hasNl m then some ((splitNl m).headD "", (splitNl m).getLastD "") else none

/--
The bisyllabic template of the specification: the shortest prefix that,
together with `vc` vowels already consumed, contains two vowels (the
whole string when it never does).
-/
def specBisyl : List Char → Nat → List Char
  | [], _ => []
  | c :: rest, vc =>
      let vc2 := if c ∈ VOWEL_LST then vc + 1 else vc
      if 2 ≤ vc2 then [c] else c :: specBisyl rest vc2

/-- Has the bisyllabic template been filled by this string (given `vc` prior vowels)? -/
def specFilled : List Char → Nat → Bool
  | [], _ => false
  | c :: rest, vc =>
      let vc2 := if c ∈ VOWEL_LST then vc + 1 else vc
      if 2 ≤ vc2 then true else specFilled rest vc2

/-- Number of vowels in a character list. -/
def countVowels (l : List Char) : Nat := l.countP fun c => decide (c ∈ VOWEL_LST)

/--
The first lexicalized item of the data, if any, has a non-empty
phonological string (the condition under which `is_vowel_initial` does
not raise).
-/
def firstLexOk (data : List String) : Prop :=
  ∀ x, (data.filter hasNl).head? = some x → (splitNl x).getLastD "" ≠ ""

/-! ### Concrete derivations used by the claims -/

/--
The example grammar of the specification, `S → [T]`, `T → [root]`, as
`read_psr` hands it to `create_base_structure` (nonterminal children
wrapped in singleton lists, rules in file order).
-/
def examplePsr : List (String × List Sexp) := [("S", [.l (.ofList [.s "T"])]), ("T", [.s "root"])]

/-- The fully expanded base tree of the example grammar. -/
def exampleBase : SexpList := .ofList [.s "S", .l (.ofList [.s "T", .s "root"])]

/-- The reduplicated variant of the example base tree (target `root`). -/
def exampleRedup : SexpList :=
  .ofList [.s "S", .l (.ofList [.s "REDP", .s "RED", .l (.ofList [.s "T", .s "root"])])]

/--
The chain grammar `S → [A]`, `A → [C]`, `C → d` with its rules listed
bottom-up (`C` first): a legitimate acyclic rule table on which
`create_base_structure` loops forever, because re-finding `A` resets the
already-expanded `C` subtree on every pass.
-/
def chainPsrBottomUp : List (String × List Sexp) :=
  [("C", [.s "d"]), ("A", [.l (.ofList [.s "C"])]), ("S", [.l (.ofList [.s "A"])])]

/-- The same chain grammar with its rules listed top-down (`S` first). -/
def chainPsrTopDown : List (String × List Sexp) :=
  [("S", [.l (.ofList [.s "A"])]), ("A", [.l (.ofList [.s "C"])]), ("C", [.s "d"])]

/-- The looping state of `create_base_structure` on `chainPsrBottomUp`. -/
def chainState1 : SexpList := .ofList [.s "S", .l (.ofList [.s "A"])]

/-- The state reached next, which the following pass maps back to itself. -/
def chainState2 : SexpList := .ofList [.s "S", .l (.ofList [.s "A", .l (.ofList [.s "C"])])]

/-! ### Helper lemmas: booleans, strings, splitting, dictionaries -/

theorem any_eq_false_forall {α : Type} (p : α → Bool) (l : List α) (h : l.any p = false) :
    ∀ x ∈ l, p x = false := by
  induction l with
  | nil => intro x hx; cases hx
  | cons y rest ih =>
      rw [List.any_cons, Bool.or_eq_false_iff] at h
      intro x hx
      rcases List.mem_cons.mp hx with rfl | hx2
      · exact h.1
      · exact ih h.2 x hx2

theorem toList_append (a b : String) : (a ++ b).toList = a.toList ++ b.toList := by
  cases a
  cases b
  rfl

theorem mk_toList (s : String) : String.mk s.toList = s := by
  cases s
  rfl

theorem eq_empty_of_toList_nil : ∀ s : String, s.toList = [] → s = ""
  | ⟨[]⟩, _ => rfl
  | ⟨_ :: _⟩, h => nomatch h

theorem no_nl_of_hasNl_false (s : String) (h : hasNl s = false) : ∀ c ∈ s.toList, c ≠ '\n' := by
  intro c hc
  have h2 := any_eq_false_forall _ _ h c hc
  simpa using h2

theorem splitCharListNl_no_nl (l : List Char) (h : ∀ c ∈ l, c ≠ '\n') :
    splitCharListNl l = [l] := by
  induction l with
  | nil => rfl
  | cons c rest ih =>
      have hc : c ≠ '\n' := h c (List.mem_cons_self c rest)
      simp only [splitCharListNl, if_neg hc]
      rw [ih fun d hd => h d (List.mem_cons_of_mem c hd)]

theorem splitCharListNl_append_nl (l r : List Char) (h : ∀ c ∈ l, c ≠ '\n') :
    splitCharListNl (l ++ '\n' :: r) = l :: splitCharListNl r := by
  induction l with
  | nil => simp [splitCharListNl]
  | cons c rest ih =>
      have ih2 := ih fun d hd => h d (List.mem_cons_of_mem c hd)
      have hc : c ≠ '\n' := h c (List.mem_cons_self c rest)
      rw [List.cons_append, splitCharListNl, if_neg hc, ih2]

theorem toList_label_phon (node phon : String) :
    (node ++ "\n" ++ phon).toList = node.toList ++ '\n' :: phon.toList := by
  rw [toList_append, toList_append]
  simp

theorem splitNl_label_phon (node phon : String) (hn : hasNl node = false)
    (hp : hasNl phon = false) : splitNl (node ++ "\n" ++ phon) = [node, phon] := by
  rw [splitNl, toList_label_phon, splitCharListNl_append_nl _ _ (no_nl_of_hasNl_false _ hn),
    splitCharListNl_no_nl _ (no_nl_of_hasNl_false _ hp)]
  simp [mk_toList]

theorem hasNl_label_phon (node phon : String) : hasNl (node ++ "\n" ++ phon) = true := by
  simp [hasNl, toList_label_phon]

theorem dictSet_new {α : Type} (d : List (String × α)) (k : String) (v : α)
    (h : k ∉ d.map Prod.fst) : dictSet d k v = d ++ [(k, v)] := by
  induction d with
  | nil => rfl
  | cons p rest ih =>
      obtain ⟨k2, w⟩ := p
      have hk2 : k2 ≠ k := by
        intro he
        exact h (by simp [he])
      rw [dictSet, if_neg hk2, List.cons_append,
        ih fun hm => h (List.mem_cons_of_mem _ hm)]

theorem dictSet_keys {α : Type} (d : List (String × α)) (k : String) (v : α) :
    (dictSet d k v).map Prod.fst
      = if k ∈ d.map Prod.fst then d.map Prod.fst else d.map Prod.fst ++ [k] := by
  induction d with
  | nil => simp [dictSet]
  | cons p rest ih =>
      obtain ⟨k2, w⟩ := p
      by_cases hk2 : k2 = k
      · subst hk2
        simp [dictSet]
      · rw [dictSet, if_neg hk2]
        by_cases hk : k ∈ rest.map Prod.fst
        · simp [hk, hk2, ih, Ne.symm hk2]
        · simp [hk, hk2, ih, Ne.symm hk2]

theorem dictLookup_dictSet_self {α : Type} (d : List (String × α)) (k : String) (v : α) :
    dictLookup (dictSet d k v) k = some v := by
  induction d with
  | nil => simp [dictSet, dictLookup]
  | cons p rest ih =>
      obtain ⟨k2, w⟩ := p
      by_cases hk2 : k2 = k
      · subst hk2
        simp [dictSet, dictLookup]
      · rw [dictSet, if_neg hk2, dictLookup, if_neg hk2]
        exact ih

/-! ### Helper lemmas: the lexicalized-leaf projection -/

theorem lexPairs_cons_lex (m : String) (rest : List String) (hm : hasNl m = true) :
    lexPairs (m :: rest)
      = ((splitNl m).headD "", (splitNl m).getLastD "") :: lexPairs rest := by
  simp [lexPairs, List.filterMap_cons, hm]

theorem lexPairs_cons_nonlex (m : String) (rest : List String) (hm : hasNl m = false) :
    lexPairs (m :: rest) = lexPairs rest := by
  simp [lexPairs, List.filterMap_cons, hm]

theorem efd_fold_eq (items : List String) :
    ∀ acc, efd_fold items acc = acc ++ joinAll ((lexPairs items).map Prod.snd) := by
  induction items with
  | nil =>
      intro acc
      simp [efd_fold, lexPairs, joinAll, String.append_empty]
  | cons m rest ih =>
      intro acc
      by_cases hm : hasNl m = true
      · rw [efd_fold, if_pos hm, ih, lexPairs_cons_lex m rest hm]
        simp only [List.map_cons, joinAll]
        rw [String.append_assoc]
      · rw [efd_fold, if_neg hm,
          lexPairs_cons_nonlex m rest (Bool.eq_false_iff.mpr hm), ih]

theorem gpw_fold_cons_lex (m : String) (rest : List String) (d : List (String × String))
    (lp : Option (String × String)) (hm : hasNl m = true) :
    gpw_fold (m :: rest) d lp
      = gpw_fold rest (dictSet d ((splitNl m).headD "") ((splitNl m).getLastD ""))
          (some ((splitNl m).headD "", (splitNl m).getLastD "")) := by
  rw [gpw_fold, if_pos hm]

theorem gpw_fold_cons_nonlex (m : String) (rest : List String) (d : List (String × String))
    (lp : Option (String × String)) (hm : hasNl m = false) :
    gpw_fold (m :: rest) d lp = gpw_fold rest d lp := by
  rw [gpw_fold, if_neg (by simp [hm])]

theorem gpw_fold_fst_eq (items : List String) :
    ∀ (d : List (String × String)) (lp : Option (String × String)),
      (∀ k ∈ (lexPairs items).map Prod.fst, k ∉ d.map Prod.fst) →
      ((lexPairs items).map Prod.fst).Nodup →
      (gpw_fold items d lp).1 = d ++ lexPairs items := by
  induction items with
  | nil =>
      intro d lp _ _
      simp [gpw_fold, lexPairs]
  | cons m rest ih =>
      intro d lp hdis hnd
      by_cases hm : hasNl m = true
      · have hk0 : (splitNl m).headD "" ∉ d.map Prod.fst := by
          apply hdis
          rw [lexPairs_cons_lex m rest hm, List.map_cons]
          exact List.mem_cons_self _ _
        rw [lexPairs_cons_lex m rest hm] at hnd
        rw [List.map_cons, List.nodup_cons] at hnd
        rw [gpw_fold_cons_lex m rest d lp hm, dictSet_new _ _ _ hk0]
        rw [ih _ _ ?hdis2 hnd.2, lexPairs_cons_lex m rest hm]
        · rw [List.append_assoc]
          rfl
        case hdis2 =>
          intro k hk
          have hk1 : k ∉ d.map Prod.fst := by
            apply hdis
            rw [lexPairs_cons_lex m rest hm, List.map_cons]
            exact List.mem_cons_of_mem _ hk
          have hk2 : k ≠ (splitNl m).headD "" := fun he => hnd.1 (he ▸ hk)
          rw [List.map_append]
          intro hmem
          rcases List.mem_append.mp hmem with h1 | h1
          · exact hk1 h1
          · rw [List.map_cons, List.map_nil, List.mem_singleton] at h1
            exact hk2 h1
      · have hm2 : hasNl m = false := Bool.eq_false_iff.mpr hm
        rw [gpw_fold_cons_nonlex m rest d lp hm2, lexPairs_cons_nonlex m rest hm2]
        rw [lexPairs_cons_nonlex m rest hm2] at hdis hnd
        exact ih d lp hdis hnd

theorem gpw_fold_keys_nodup (items : List String) :
    ∀ (d : List (String × String)) (lp : Option (String × String)),
      (d.map Prod.fst).Nodup → ((gpw_fold items d lp).1.map Prod.fst).Nodup := by
  induction items with
  | nil =>
      intro d lp hd
      simpa [gpw_fold] using hd
  | cons m rest ih =>
      intro d lp hd
      by_cases hm : hasNl m = true
      · rw [gpw_fold_cons_lex m rest d lp hm]
        apply ih
        rw [dictSet_keys]
        by_cases hk : (splitNl m).headD "" ∈ d.map Prod.fst
        · rw [if_pos hk]
          exact hd
        · rw [if_neg hk]
          rw [List.nodup_append]
          refine ⟨hd, List.nodup_singleton _, ?_⟩
          intro a ha hb
          rw [List.mem_singleton] at hb
          subst hb
          exact hk ha
      · rw [gpw_fold_cons_nonlex m rest d lp (Bool.eq_false_iff.mpr hm)]
        exact ih d lp hd

/-! ### Helper lemmas: the looping grammar expansion -/

theorem cbs_chainState2_none :
    ∀ fuel, create_base_structure fuel chainPsrBottomUp chainState2 = none := by
  intro fuel
  induction fuel with
  | zero => rfl
  | succ n ih =>
      have hstep : create_base_structure (n + 1) chainPsrBottomUp chainState2
          = create_base_structure n chainPsrBottomUp chainState2 := rfl
      rw [hstep]
      exact ih

/-! ### Helper lemmas: the reduplicant copy scan -/

theorem push_eq_append (acc : String) (c : Char) : acc.push c = acc ++ String.mk [c] := by
  cases acc
  rfl

theorem push_append_mk (acc : String) (c : Char) (l : List Char) :
    acc.push c ++ String.mk l = acc ++ String.mk (c :: l) := by
  cases acc
  show String.mk (_ ++ [c] ++ l) = String.mk (_ ++ c :: l)
  rw [List.append_assoc]
  rfl

theorem take_bisyllabic_filled (cs : List Char) (vc : Nat) (acc : String) :
    take_bisyllabic cs vc true acc = (acc, true) := by
  cases cs with
  | nil => rfl
  | cons c rest => rw [take_bisyllabic, if_pos rfl]

theorem take_bisyllabic_eq (cs : List Char) :
    ∀ (vc : Nat) (acc : String),
      take_bisyllabic cs vc false acc
        = (acc ++ String.mk (specBisyl cs vc), specFilled cs vc) := by
  induction cs with
  | nil =>
      intro vc acc
      rw [take_bisyllabic, specBisyl, specFilled, show String.mk [] = "" from rfl,
        String.append_empty]
  | cons c rest ih =>
      intro vc acc
      rw [take_bisyllabic, if_neg Bool.false_ne_true, specBisyl, specFilled]
      try dsimp only
      by_cases hv : 2 ≤ (if c ∈ VOWEL_LST then vc + 1 else vc)
      · rw [if_pos hv, if_pos hv, if_pos hv, take_bisyllabic_filled]
        rw [push_eq_append]
      · rw [if_neg hv, if_neg hv, if_neg hv, ih]
        rw [push_append_mk]

theorem countVowels_specBisyl (l : List Char) :
    ∀ vc, vc < 2 → countVowels (specBisyl l vc) + vc ≤ 2 := by
  induction l with
  | nil =>
      intro vc hvc
      simp only [specBisyl, countVowels, List.countP_nil]
      omega
  | cons c rest ih =>
      intro vc hvc
      rw [specBisyl]
      try dsimp only
      by_cases hc : c ∈ VOWEL_LST
      · rw [if_pos hc]
        by_cases h2 : 2 ≤ vc + 1
        · rw [if_pos h2]
          have hcv : countVowels [c] = 1 := by simp [countVowels, hc]
          omega
        · rw [if_neg h2]
          have h3 := ih (vc + 1) (by omega)
          have hcv : countVowels (c :: specBisyl rest (vc + 1))
              = countVowels (specBisyl rest (vc + 1)) + 1 := by
            simp [countVowels, List.countP_cons, hc]
          omega
      · rw [if_neg hc, if_neg (by omega : ¬ 2 ≤ vc)]
        have h3 := ih vc hvc
        have hcv : countVowels (c :: specBisyl rest vc)
            = countVowels (specBisyl rest vc) := by
          simp [countVowels, List.countP_cons, hc]
        omega

theorem firstLexOk_rest_nonlex (item : String) (rest : List String)
    (hm : hasNl item = false) (h : firstLexOk (item :: rest)) : firstLexOk rest := by
  intro x hx
  apply h
  rw [List.filter_cons, if_neg (by simp [hm])]
  exact hx

theorem redup_scan_nonbis (scope : String) (hsc : ¬ scope = "bisyllabic") :
    ∀ (data : List String) (content : String) (fi : Option (String × Bool)),
      (fi = none → firstLexOk data) →
      ∃ fi2, redup_scan scope data content fi false
        = some (content ++ joinAll ((lexPairs data).map Prod.snd), fi2, false) := by
  intro data
  induction data with
  | nil =>
      intro content fi _
      refine ⟨fi, ?_⟩
      rw [redup_scan, show joinAll ((lexPairs ([] : List String)).map Prod.snd) = "" from rfl,
        String.append_empty]
  | cons item rest ih =>
      intro content fi hok
      by_cases hm : hasNl item = true
      · have hjoin : joinAll ((lexPairs (item :: rest)).map Prod.snd)
            = (splitNl item).getLastD "" ++ joinAll ((lexPairs rest).map Prod.snd) := by
          rw [lexPairs_cons_lex item rest hm, List.map_cons]
          rfl
        cases fi with
        | none =>
            have hfl : firstLexOk (item :: rest) := hok rfl
            have hhead : ((item :: rest).filter hasNl).head? = some item := by
              rw [List.filter_cons, if_pos (by simp [hm])]
              rfl
            have hne : (splitNl item).getLastD "" ≠ "" := hfl item hhead
            obtain ⟨vi, hvi⟩ : ∃ vi, is_vowel_initial (splitNl item) = some vi := by
              rw [is_vowel_initial]
              cases hl : ((splitNl item).getLastD "").toList with
              | nil => exact absurd (eq_empty_of_toList_nil _ hl) hne
              | cons c cs => exact ⟨_, rfl⟩
            have hstep : redup_scan scope (item :: rest) content none false
                = redup_scan scope rest (content ++ (splitNl item).getLastD "")
                    (some ((splitNl item).headD "", vi)) false := by
              rw [redup_scan, if_pos hm]
              dsimp only
              rw [hvi, if_neg hsc]
              dsimp only
              rw [if_neg Bool.false_ne_true]
            obtain ⟨fi2, hrec⟩ := ih (content ++ (splitNl item).getLastD "")
              (some ((splitNl item).headD "", vi)) (fun h => nomatch h)
            refine ⟨fi2, ?_⟩
            rw [hstep, hrec, hjoin, String.append_assoc]
        | some p =>
            have hstep : redup_scan scope (item :: rest) content (some p) false
                = redup_scan scope rest (content ++ (splitNl item).getLastD "")
                    (some p) false := by
              rw [redup_scan, if_pos hm]
              dsimp only
              rw [if_neg hsc]
              dsimp only
              rw [if_neg Bool.false_ne_true]
            obtain ⟨fi2, hrec⟩ := ih (content ++ (splitNl item).getLastD "")
              (some p) (fun h => nomatch h)
            refine ⟨fi2, ?_⟩
            rw [hstep, hrec, hjoin, String.append_assoc]
      · have hm2 : hasNl item = false := Bool.eq_false_iff.mpr hm
        have hstep : redup_scan scope (item :: rest) content fi false
            = redup_scan scope rest content fi false := by
          rw [redup_scan, if_neg (by simp [hm2]), if_neg Bool.false_ne_true]
        obtain ⟨fi2, hrec⟩ := ih content fi
          (fun h => firstLexOk_rest_nonlex item rest hm2 (hok h))
        refine ⟨fi2, ?_⟩
        rw [hstep, hrec, lexPairs_cons_nonlex item rest hm2]

/-! ### Helper lemmas: tree paths -/

theorem get_modify_self : ∀ (xs : SexpList) (k : Nat) (g : Sexp → Sexp),
    (xs.modify k g).get? k = (xs.get? k).map g
  | .nil, _, _ => rfl
  | .cons _ _, 0, _ => rfl
  | .cons _ rest, k + 1, g => get_modify_self rest k g

theorem get_modify_other : ∀ (xs : SexpList) (k j : Nat) (g : Sexp → Sexp), j ≠ k →
    (xs.modify k g).get? j = xs.get? j
  | .nil, _, _, _, _ => rfl
  | .cons _ _, 0, 0, _, h => absurd rfl h
  | .cons _ _, 0, _ + 1, _, _ => rfl
  | .cons _ _, _ + 1, 0, _, _ => rfl
  | .cons _ rest, k + 1, j + 1, g, h =>
      get_modify_other rest k j g fun he => h (by rw [he])

theorem updateAt_modify_eq : ∀ (p : List Nat) (k : Nat) (g : Sexp → Sexp) (xs : SexpList),
    updateAt p (fun inner => inner.modify k g) xs = modifyAtPath (p ++ [k]) g xs
  | [], _, _, _ => rfl
  | [_], _, _, _ => rfl
  | i :: j :: p, k, g, xs => by
      have ih := updateAt_modify_eq (j :: p) k g
      have hm : modifyAtPath ((i :: j :: p) ++ [k]) g xs
          = xs.modify i (fun e => match e with
              | Sexp.l ys => Sexp.l (modifyAtPath ((j :: p) ++ [k]) g ys)
              | Sexp.s v => Sexp.s v) := rfl
      rw [updateAt, hm]
      congr 1
      funext e
      cases e with
      | s v => rfl
      | l ys =>
          show Sexp.l (updateAt (j :: p) _ ys) = Sexp.l (modifyAtPath ((j :: p) ++ [k]) g ys)
          rw [ih ys]

theorem take_getD_dropLast : ∀ (a b : Nat) (rest : List Nat),
    (a :: b :: rest).take ((a :: b :: rest).length - 2)
        ++ [(a :: b :: rest).getD ((a :: b :: rest).length - 2) 0]
      = (a :: b :: rest).dropLast
  | _, _, [] => rfl
  | a, b, c :: rs => congrArg (fun t => a :: t) (take_getD_dropLast b c rs)

theorem getAtPath_modify_self : ∀ (p : List Nat) (xs : SexpList) (g : Sexp → Sexp) (e : Sexp),
    getAtPath xs p = some e → getAtPath (modifyAtPath p g xs) p = some (g e)
  | [], xs, g, e, h => by
      rw [getAtPath] at h
      cases h
  | [k], xs, g, e, h => by
      rw [getAtPath] at h
      have hm : modifyAtPath [k] g xs = xs.modify k g := rfl
      rw [hm, getAtPath, get_modify_self, h]
      rfl
  | k :: j :: p, xs, g, e, h => by
      rw [getAtPath] at h
      case x_2 => exact List.cons_ne_nil _ _
      cases hx : xs.get? k with
      | none =>
          rw [hx] at h
          cases h
      | some e2 =>
          rw [hx] at h
          cases e2 with
          | s v => cases h
          | l ys =>
              rw [modifyAtPath, getAtPath, get_modify_self, hx]
              · exact getAtPath_modify_self (j :: p) ys g e h
              all_goals exact List.cons_ne_nil _ _

theorem getAtPath_modify_other : ∀ (q p : List Nat) (g : Sexp → Sexp) (xs : SexpList),
    pathPre p q = false → pathPre q p = false →
    getAtPath (modifyAtPath p g xs) q = getAtPath xs q
  | [], p, g, xs, _, _ => by
      rw [getAtPath, getAtPath]
  | _ :: _, [], _, _, h1, _ => by
      rw [pathPre] at h1
      cases h1
  | b :: q2, a :: p2, g, xs, h1, h2 => by
      rw [pathPre] at h1 h2
      by_cases hab : a = b
      · subst hab
        simp only [decide_True, Bool.true_and] at h1 h2
        cases p2 with
        | nil =>
            rw [pathPre] at h1
            cases h1
        | cons j p3 =>
            cases q2 with
            | nil =>
                rw [pathPre] at h2
                cases h2
            | cons i q3 =>
                rw [modifyAtPath, getAtPath, getAtPath, get_modify_self]
                · cases hx : xs.get? a with
                  | none => rfl
                  | some e =>
                      cases e with
                      | s v => rfl
                      | l ys => exact getAtPath_modify_other (i :: q3) (j :: p3) g ys h1 h2
                all_goals exact List.cons_ne_nil _ _
      · have hba : b ≠ a := fun he => hab he.symm
        cases p2 with
        | nil =>
            have hm : modifyAtPath [a] g xs = xs.modify a g := rfl
            cases q2 with
            | nil =>
                rw [hm, getAtPath, getAtPath, get_modify_other xs a b g hba]
            | cons i q3 =>
                rw [hm, getAtPath, getAtPath, get_modify_other xs a b g hba]
                all_goals exact List.cons_ne_nil _ _
        | cons j p3 =>
            cases q2 with
            | nil =>
                rw [modifyAtPath, getAtPath, getAtPath, get_modify_other xs a b _ hba]
                all_goals exact List.cons_ne_nil _ _
            | cons i q3 =>
                rw [modifyAtPath, getAtPath, getAtPath, get_modify_other xs a b _ hba]
                all_goals exact List.cons_ne_nil _ _

/-! ### Helper lemmas: the phonological fixpoint loop -/

theorem phono_fix_loop_sound :
    ∀ (fuel : Nat) (t : SexpList) (rules : List (String × List String)) (t2 : SexpList),
      phono_fix_loop fuel t rules = some t2 → hasEnvMatch t2 rules = false := by
  intro fuel
  induction fuel with
  | zero =>
      intro t rules t2 h
      cases h
  | succ n ih =>
      intro t rules t2 h
      rw [phono_fix_loop] at h
      by_cases hg : hasEnvMatch t rules = true
      · rw [if_pos hg] at h
        cases ha : apply_phonological_processes t rules with
        | none =>
            rw [ha] at h
            cases h
        | some t3 =>
            rw [ha] at h
            exact ih t3 rules t2 h
      · rw [if_neg hg] at h
        cases h
        exact Bool.eq_false_iff.mpr hg

theorem gpw_expand_word (t : SexpList) (p n : String) (d : List (String × String)) (w : String)
    (h : gpw_expand t = some (p, n, d, w)) :
    w = get_phonological_word t ∧ d = (gpw_fold (flattenL t) [] none).1 := by
  rw [gpw_expand] at h
  cases hf : gpw_fold (flattenL t) [] none with
  | mk d2 lp =>
      rw [hf] at h
      cases lp with
      | none => cases h
      | some pr =>
          obtain ⟨n2, p2⟩ := pr
          simp only [Option.some.injEq, Prod.mk.injEq] at h
          obtain ⟨h1, h2, h3, h4⟩ := h
          subst h1 h2 h3 h4
          constructor
          · rw [get_phonological_word, hf]
          · rfl

theorem phono_env_skip (m : List (String × String)) (environment : String) (rule : List String)
    (w : String) (out : SexpList) (st : Option Sticky)
    (h : listHasInfix w.toList environment.toList = false) :
    phono_env m environment rule w out st = some (out, st) := by
  rw [phono_env, if_neg (by simpa using h)]
  rfl

theorem phono_fold_skip (w : String) (m : List (String × String)) :
    ∀ (rules : List (String × List String)) (out : SexpList) (st : Option Sticky),
      (∀ er ∈ rules, listHasInfix w.toList er.1.toList = false) →
      rules.foldlM (fun (acc : SexpList × Option Sticky) (er : String × List String) =>
          phono_env m er.1 er.2 w acc.1 acc.2) (out, st) = some (out, st) := by
  intro rules
  induction rules with
  | nil =>
      intro out st _
      rfl
  | cons er rest ih =>
      intro out st hall
      rw [List.foldlM_cons]
      rw [phono_env_skip _ _ _ _ _ _ (hall er (List.mem_cons_self _ _))]
      show rest.foldlM _ (out, st) = some (out, st)
      exact ih out st fun e he => hall e (List.mem_cons_of_mem _ he)

theorem apply_phono_match_eq (t : SexpList) (rules : List (String × List String))
    (p n : String) (d : List (String × String)) (w : String)
    (hg : gpw_expand t = some (p, n, d, w)) :
    apply_phonological_processes t rules
      = match rules.foldlM (fun (acc : SexpList × Option Sticky) (er : String × List String) =>
            phono_env d er.1 er.2 w acc.1 acc.2) (t, (none : Option Sticky)) with
        | none => none
        | some (out, _) => some out := by
  rw [apply_phonological_processes, hg]

theorem apply_phono_fixpoint (t : SexpList) (rules : List (String × List String))
    (p n : String) (d : List (String × String)) (w : String)
    (hg : gpw_expand t = some (p, n, d, w))
    (hmatch : hasEnvMatch t rules = false) :
    apply_phonological_processes t rules = some t := by
  have hw := (gpw_expand_word t p n d w hg).1
  have hall : ∀ er ∈ rules, listHasInfix w.toList er.1.toList = false := by
    intro er he
    rw [hw]
    exact any_eq_false_forall _ _ hmatch er he
  rw [apply_phono_match_eq t rules p n d w hg, phono_fold_skip w d rules t none hall]

/-! ### Helper lemmas: single-target reduplication -/

theorem rbs_single (base : SexpList) (node environment root : String) (ei : List Nat)
    (henv : reduplicate_environments environment root = some true)
    (hfind : find_embedded_index base node = some ei)
    (hlen : 2 ≤ ei.length) :
    reduplicate_base_structure base [(node, environment)] root
      = some [modifyAtPath ei.dropLast redpWrap base] := by
  cases ei with
  | nil => exact absurd hlen (by simp)
  | cons a tl =>
      cases tl with
      | nil => exact absurd hlen (by simp)
      | cons b rest =>
          rw [reduplicate_base_structure, rbs_go, henv]
          show (match find_embedded_index base node with
                | none => none
                | some ei2 =>
                    match insert_redp base ei2 with
                    | none => none
                    | some t => rbs_go base root [] ([] ++ [t]))
              = some [modifyAtPath (a :: b :: rest).dropLast redpWrap base]
          rw [hfind]
          show (match insert_redp base (a :: b :: rest) with
                | none => none
                | some t => rbs_go base root [] ([] ++ [t]))
              = some [modifyAtPath (a :: b :: rest).dropLast redpWrap base]
          rw [insert_redp, if_pos (by simp : 2 ≤ (a :: b :: rest).length)]
          show some [updateAt ((a :: b :: rest).take ((a :: b :: rest).length - 2))
              (fun inner => inner.modify ((a :: b :: rest).getD ((a :: b :: rest).length - 2) 0)
                fun sub => Sexp.l (.cons (.s "REDP") (.cons (.s "RED") (.cons sub .nil)))) base]
            = some [modifyAtPath (a :: b :: rest).dropLast redpWrap base]
          rw [updateAt_modify_eq, take_getD_dropLast]
          rfl

/-! ### Helper lemmas: the bisyllabic scan on a single lexicalized item -/

theorem redup_scan_single_bisyllabic (node phon : String) (c : Char) (cs : List Char)
    (hn : hasNl node = false) (hp : hasNl phon = false) (hc : phon.toList = c :: cs) :
    redup_scan "bisyllabic" [node ++ "\n" ++ phon] "" none false
      = some (String.mk (specBisyl phon.toList 0), some (node, decide (c ∈ VOWEL_LST)),
          specFilled phon.toList 0) := by
  have hsplit := splitNl_label_phon node phon hn hp
  have hlast : ([node, phon] : List String).getLastD "" = phon := rfl
  have hvi : is_vowel_initial [node, phon] = some (decide (c ∈ VOWEL_LST)) := by
    rw [is_vowel_initial, hlast, hc]
  rw [redup_scan, if_pos (hasNl_label_phon node phon)]
  try dsimp only
  rw [hsplit]
  try dsimp only
  rw [hvi]
  try dsimp only
  rw [hlast, if_pos rfl, take_bisyllabic_eq]
  try dsimp only
  cases hb : specFilled phon.toList 0 with
  | false =>
      rw [if_neg Bool.false_ne_true, redup_scan, String.empty_append]
      rfl
  | true =>
      rw [if_pos rfl, String.empty_append]
      rfl

/-! ## Claim theorems -/

/--
C1: for the grammar `S → [T]`, `T → [root]` with vocabulary entry
`root → ("", "apa")`, no phonological rules and no reduplication, the
final flat phonological word is `"apa"`.  Adding the reduplication
target `root` (unconditioned environment, unconditioned scope, empty
epenthesis) injects `[REDP, RED, [T, root]]` into the base tree, the
dynamically computed `RED` entry is `("", "apa")` (the fourth conjunct
evaluates `add_vi_rule_redup` on the flattened marked tree at the cycle
where `RED` is due), the final lexicalized tree carries `RED → apa`, and
the final word is `"apaapa"`.
-/
theorem c1_end_to_end_example :
    create_base_structure 5 examplePsr (.ofList [.s "S"]) = some exampleBase
    ∧ (apply_vi_rules 5 exampleBase [("root", ["", "apa"])] [] "" "" "").map
        (fun steps => extract_final_derivation (steps.getLastD .nil)) = some "apa"
    ∧ reduplicate_base_structure exampleBase [("root", "")] "apa" = some [exampleRedup]
    ∧ (add_vi_rule_redup ["S", "REDP", "RED**", "T", "root\napa"] [("root", ["", "apa"])]
          "" "" "").map (fun r => dictLookup r "RED") = some (some ["", "apa"])
    ∧ (apply_vi_rules 5 exampleRedup [("root", ["", "apa"])] [] "" "" "").map
        (fun steps => steps.getLastD .nil)
      = some (.ofList [.s "S",
          .l (.ofList [.s "REDP", .s "RED\napa", .l (.ofList [.s "T", .s "root\napa"])])])
    ∧ (apply_vi_rules 5 exampleRedup [("root", ["", "apa"])] [] "" "" "").map
        (fun steps => extract_final_derivation (steps.getLastD .nil)) = some "apaapa" :=
  ⟨rfl, rfl, rfl, rfl, rfl, rfl⟩

/--
C2 (code bug): the claim — `create_base_structure` terminates and fully
expands every acyclic rule table — fails on the code.  On the acyclic
chain table `S → [A]`, `A → [C]`, `C → d` with rules listed bottom-up
(`chainPsrBottomUp`, a legitimate file order), the expansion loop never
terminates for any fuel: each pass re-finds the already-expanded `A` and
resets its `C` child (the `is_rule_list` guard, whose comment says
"update only if ... has not been processed before", treats the expanded
node like an unprocessed one because both are lists).  The same table in
top-down order terminates with a fully expanded, placeholder-free tree,
confirming the claim is what the code intends.
-/
theorem c2_expansion_nontermination :
    (∀ fuel, create_base_structure fuel chainPsrBottomUp (.ofList [.s "S"]) = none)
    ∧ create_base_structure 5 chainPsrTopDown (.ofList [.s "S"])
        = some (.ofList [.s "S", .l (.ofList [.s "A", .l (.ofList [.s "C", .s "d"])])])
    ∧ unprocessed_psr_in_structure
        (.ofList [.s "S", .l (.ofList [.s "A", .l (.ofList [.s "C", .s "d"])])]) = false := by
  refine ⟨?_, rfl, rfl⟩
  intro fuel
  match fuel with
  | 0 => rfl
  | 1 => rfl
  | (n + 2) => exact cbs_chainState2_none n

/--
C3: for a single reduplication target with empty (unconditioned)
environment, injection produces exactly one variant tree; with the
`"VOWEL"` environment it produces a variant exactly when the first
character of the root's phonological string is a vowel of
`{a, e, i, o, u}`.  The hypotheses say the target label is found by the
depth-first search at a path of length at least two (otherwise the
source exits fatally, §4.2 of the specification).
-/
theorem c3_injection_conditionality (base : SexpList) (node root : String) (ei : List Nat)
    (hfind : find_embedded_index base node = some ei) (hlen : 2 ≤ ei.length) :
    ((reduplicate_base_structure base [(node, "")] root).map List.length = some 1)
    ∧ ∀ (c : Char) (cs : List Char), root.toList = c :: cs →
        ((reduplicate_base_structure base [(node, "VOWEL")] root).map List.length
          = some (if c ∈ VOWEL_LST then 1 else 0)) := by
  constructor
  · rw [rbs_single base node "" root ei rfl hfind hlen]
    rfl
  · intro c cs hc
    by_cases hv : c ∈ VOWEL_LST
    · have henv : reduplicate_environments "VOWEL" root = some true := by
        rw [reduplicate_environments, if_neg (by decide), if_pos rfl, hc]
        simp [hv]
      rw [rbs_single base node "VOWEL" root ei henv hfind hlen]
      simp [hv]
    · have henv : reduplicate_environments "VOWEL" root = some false := by
        rw [reduplicate_environments, if_neg (by decide), if_pos rfl, hc]
        simp [hv]
      have hres : reduplicate_base_structure base [(node, "VOWEL")] root = some [] := by
        rw [reduplicate_base_structure, rbs_go, henv]
        rfl
      rw [hres]
      simp [hv]

/-- C3 witness: the unconditioned and vowel-conditioned counts at the example tree. -/
theorem c3_witness :
    ((reduplicate_base_structure exampleBase [("root", "")] "apa").map List.length = some 1)
    ∧ ∀ (c : Char) (cs : List Char), ("apa" : String).toList = c :: cs →
        ((reduplicate_base_structure exampleBase [("root", "VOWEL")] "apa").map List.length
          = some (if c ∈ VOWEL_LST then 1 else 0)) :=
  c3_injection_conditionality exampleBase "root" "apa" [1, 1] rfl (by decide)

/--
C4 (corrected): the claim — with scope `"bisyllabic"` the computed RED
content stops immediately after the second vowel, never including a
third vowel — fails when more than one leaf is already lexicalized,
because the vowel counter restarts at zero for every item: with
leaves `ap` and `ata` the computed content is `"apata"`, which contains
three vowels.
-/
theorem c4_counterexample :
    (add_vi_rule_redup ["A\nap", "B\nata"] [] "bisyllabic" "" "").map
        (fun r => dictLookup r "RED") = some (some ["", "apata"])
    ∧ countVowels ("apata" : String).toList = 3 := ⟨rfl, by decide⟩

/--
C4 (amended): with scope `"bisyllabic"`, copying stops immediately after
the second vowel **of each lexicalized leaf** (the vowel counter resets
per leaf).  With a single lexicalized leaf the claim holds as stated:
the RED entry is the shortest prefix of that leaf's phonology containing
two vowels (`specBisyl`), which never contains a third vowel; for
copied phonology `"apata"` the RED entry is `"apa"` and the final word of
the reduplicated example derivation is `"apaapata"`.
-/
theorem c4_amended_bisyllabic :
    (∀ (node phon : String) (vi : List (String × List String)) (environment : String)
        (c : Char) (cs : List Char),
        hasNl node = false → hasNl phon = false → phon.toList = c :: cs →
        (add_vi_rule_redup [node ++ "\n" ++ phon] vi "bisyllabic" "" environment).map
            (fun r => dictLookup r "RED")
          = some (some ["", String.mk (specBisyl phon.toList 0)]))
    ∧ (∀ l : List Char, countVowels (specBisyl l 0) ≤ 2)
    ∧ (add_vi_rule_redup ["root\napata"] [("root", ["", "apata"])] "bisyllabic" "" "").map
        (fun r => dictLookup r "RED") = some (some ["", "apa"])
    ∧ (apply_vi_rules 5 exampleRedup [("root", ["", "apata"])] [] "bisyllabic" "" "").map
        (fun steps => extract_final_derivation (steps.getLastD .nil)) = some "apaapata" := by
  refine ⟨?_, ?_, rfl, rfl⟩
  · intro node phon vi environment c cs hn hp hc
    rw [add_vi_rule_redup, redup_scan_single_bisyllabic node phon c cs hn hp hc]
    show (some (dictSet vi "RED" ["", String.mk (specBisyl phon.toList 0)])).map
        (fun r => dictLookup r "RED")
      = some (some ["", String.mk (specBisyl phon.toList 0)])
    show some (dictLookup (dictSet vi "RED" ["", String.mk (specBisyl phon.toList 0)]) "RED")
      = some (some ["", String.mk (specBisyl phon.toList 0)])
    rw [dictLookup_dictSet_self]
  · intro l
    have h2 := countVowels_specBisyl l 0 (by omega)
    omega

/-- C4 witness: the single-leaf bisyllabic formula at `root → "apata"`. -/
theorem c4_witness :
    (add_vi_rule_redup ["root" ++ "\n" ++ "apata"] [] "bisyllabic" "" "").map
        (fun r => dictLookup r "RED")
      = some (some ["", String.mk (specBisyl ("apata" : String).toList 0)]) :=
  c4_amended_bisyllabic.1 "root" "apata" [] "" 'a' ['p', 'a', 't', 'a']
    (by decide) (by decide) (by decide)

/--
C5 (corrected): the claim — with non-bisyllabic scope the RED entry
equals exactly the phonological string of the first lexicalized leaf,
with no material from later leaves — fails: the copy loop never breaks
in the non-bisyllabic case, so with lexicalized leaves `apa` and `ta`
the entry is `"apata"`, not `"apa"`.
-/
theorem c5_counterexample :
    (add_vi_rule_redup ["A\napa", "B\nta"] [] "" "" "").map (fun r => dictLookup r "RED")
      = some (some ["", "apata"])
    ∧ ("apata" : String) ≠ "apa" := ⟨rfl, by decide⟩

/--
C5 (amended): with any non-bisyllabic scope and empty epenthesis, the
computed RED entry equals the concatenation of the phonological strings
of **all** already-lexicalized leaves in left-to-right order (provided
the first lexicalized leaf's phonology is non-empty, otherwise the
source raises).
-/
theorem c5_amended_full_copy (data : List String) (vi : List (String × List String))
    (scope environment : String) (hsc : ¬ scope = "bisyllabic") (hok : firstLexOk data) :
    (add_vi_rule_redup data vi scope "" environment).map (fun r => dictLookup r "RED")
      = some (some ["", joinAll ((lexPairs data).map Prod.snd)]) := by
  obtain ⟨fi2, hscan⟩ := redup_scan_nonbis scope hsc data "" none (fun _ => hok)
  rw [add_vi_rule_redup, hscan]
  show (some (dictSet vi "RED" ["", "" ++ joinAll ((lexPairs data).map Prod.snd)])).map
      (fun r => dictLookup r "RED")
    = some (some ["", joinAll ((lexPairs data).map Prod.snd)])
  show some (dictLookup
      (dictSet vi "RED" ["", "" ++ joinAll ((lexPairs data).map Prod.snd)]) "RED")
    = some (some ["", joinAll ((lexPairs data).map Prod.snd)])
  rw [dictLookup_dictSet_self, String.empty_append]

/-- C5 witness: the full-copy formula at two lexicalized leaves. -/
theorem c5_witness :
    (add_vi_rule_redup ["V\napa", "T\nta"] [] "" "" "").map (fun r => dictLookup r "RED")
      = some (some ["", joinAll ((lexPairs ["V\napa", "T\nta"]).map Prod.snd)]) :=
  c5_amended_full_copy ["V\napa", "T\nta"] [] "" "" (by decide)
    (fun x hx => by cases hx; decide)

/--
C6: for a target whose environment is satisfied, injection returns the
base tree with the subtree at the target position replaced by
`[REDP, RED, <original subtree>]` (the position is the list containing
the target label, i.e. the found path without its last component), with
the subtree at every diverging path unchanged; the base tree itself is
unmodified (the source deep-copies before splicing; the embedding is
pure, so the input value is untouched by construction).
-/
theorem c6_injection_shape (base : SexpList) (node environment root : String)
    (ei : List Nat) (orig : Sexp)
    (henv : reduplicate_environments environment root = some true)
    (hfind : find_embedded_index base node = some ei)
    (hget : getAtPath base ei.dropLast = some orig) :
    reduplicate_base_structure base [(node, environment)] root
        = some [modifyAtPath ei.dropLast redpWrap base]
    ∧ getAtPath (modifyAtPath ei.dropLast redpWrap base) ei.dropLast = some (redpWrap orig)
    ∧ ∀ q, pathPre ei.dropLast q = false → pathPre q ei.dropLast = false →
        getAtPath (modifyAtPath ei.dropLast redpWrap base) q = getAtPath base q := by
  have hlen : 2 ≤ ei.length := by
    cases ei with
    | nil =>
        rw [show ([] : List Nat).dropLast = [] from rfl, getAtPath] at hget
        cases hget
    | cons a tl =>
        cases tl with
        | nil =>
            rw [show ([a] : List Nat).dropLast = [] from rfl, getAtPath] at hget
            cases hget
        | cons b rest => simp
  exact ⟨rbs_single base node environment root ei henv hfind hlen,
    getAtPath_modify_self _ _ _ _ hget,
    fun q h1 h2 => getAtPath_modify_other q _ _ base h1 h2⟩

/-- C6 witness: the injected shape at the example tree and target `root`. -/
theorem c6_witness :
    reduplicate_base_structure exampleBase [("root", "")] "apa"
        = some [modifyAtPath ([1, 1] : List Nat).dropLast redpWrap exampleBase]
    ∧ getAtPath (modifyAtPath ([1, 1] : List Nat).dropLast redpWrap exampleBase)
        ([1, 1] : List Nat).dropLast
        = some (redpWrap (.l (.ofList [.s "T", .s "root"])))
    ∧ ∀ q, pathPre ([1, 1] : List Nat).dropLast q = false →
        pathPre q ([1, 1] : List Nat).dropLast = false →
        getAtPath (modifyAtPath ([1, 1] : List Nat).dropLast redpWrap exampleBase) q
          = getAtPath exampleBase q :=
  c6_injection_shape exampleBase "root" "" "apa" [1, 1]
    (.l (.ofList [.s "T", .s "root"])) rfl rfl rfl

/--
C7 (corrected): the claim — repeated rewriting always reaches a tree
whose flat word contains no rule environment — fails: with the single
leaf `A → "ab"` and the rule `ab → (a, b)`, one full pass returns its
input unchanged while the environment still matches, so the loop never
reaches the claimed state (the fueled loop exhausts any fuel).
-/
theorem c7_counterexample :
    apply_phonological_processes (.ofList [.s "A\nab"]) [("ab", ["a", "b"])]
      = some (.ofList [.s "A\nab"])
    ∧ hasEnvMatch (.ofList [.s "A\nab"]) [("ab", ["a", "b"])] = true
    ∧ phono_fix_loop 1 (.ofList [.s "A\nab"]) [("ab", ["a", "b"])] = none := ⟨rfl, rfl, rfl⟩

/--
The divergence behind the C7 counterexample, for every fuel value: the
fixpoint loop on that input never returns.
-/
theorem phono_loop_ab_diverges :
    ∀ fuel, phono_fix_loop fuel (.ofList [.s "A\nab"]) [("ab", ["a", "b"])] = none := by
  intro fuel
  induction fuel with
  | zero => rfl
  | succ n ih =>
      have hstep : phono_fix_loop (n + 1) (.ofList [.s "A\nab"]) [("ab", ["a", "b"])]
          = phono_fix_loop n (.ofList [.s "A\nab"]) [("ab", ["a", "b"])] := rfl
      rw [hstep]
      exact ih

/--
C7 (amended): when the repeated rewriting does terminate, the resulting
tree's flat word contains no rule environment; and one rewrite pass
applied to a tree already at that fixpoint (with at least one
lexicalized leaf, witnessed by `gpw_expand` succeeding) returns a tree
equal to its input.  Termination itself is not guaranteed.
-/
theorem c7_amended_fixpoint :
    (∀ (fuel : Nat) (t : SexpList) (rules : List (String × List String)) (t2 : SexpList),
        phono_fix_loop fuel t rules = some t2 → hasEnvMatch t2 rules = false)
    ∧ (∀ (t : SexpList) (rules : List (String × List String)) (p n : String)
        (d : List (String × String)) (w : String),
        gpw_expand t = some (p, n, d, w) → hasEnvMatch t rules = false →
        apply_phonological_processes t rules = some t) :=
  ⟨phono_fix_loop_sound,
    fun t rules p n d w hg hm => apply_phono_fixpoint t rules p n d w hg hm⟩

/-- C7 witness: a one-pass identity at a concrete fixpoint tree. -/
theorem c7_witness :
    apply_phonological_processes (.ofList [.s "A\nab"]) [("xy", ["x", "y"])]
      = some (.ofList [.s "A\nab"]) :=
  c7_amended_fixpoint.2 (.ofList [.s "A\nab"]) [("xy", ["x", "y"])]
    "ab" "A" [("A", "ab")] "ab" rfl rfl

/--
C8 (corrected): the claim — every interior match is rewritten at the
character offset derived from its own match index, including matches in
later leaves and repeated matches — fails: the engine always derives the
offset pair from the *first* match index in the *flat* word and applies
it as an index into the matched leaf's own string, so a match interior
to the second leaf (`A → ta`, `B → oki`, environment `k` at flat index 3
but local offset 1 of a 3-character string) makes the engine index out
of range and abort instead of rewriting.
-/
theorem c8_counterexample :
    apply_phonological_processes (.ofList [.s "A\nta", .s "B\noki"]) [("k", ["x", "y"])] = none
    ∧ find_all_indices "taoki" "k" = [3] := ⟨rfl, rfl⟩

/--
C8 (amended): in one rewrite pass the offset pair is derived from the
first match index of the flat word, reused as a leaf-local index.  For a
single match interior to the first (only) morpheme the beforeSeg edit
lands at that offset and the afterSeg edit at the following character,
but the afterSeg edit only applies because the beforeSeg edit left the
string unchanged (`t → t`); when the beforeSeg edit changes the string
(`k → x` in `akaka`), the stale target no longer matches, so the
afterSeg edit and every later match are silently skipped; a match in a
later leaf aborts out of range.
-/
theorem c8_amended_offsets :
    apply_phonological_processes (.ofList [.s "A\napata"]) [("t", ["t", "h"])]
      = some (.ofList [.s "A\napath"])
    ∧ apply_phonological_processes (.ofList [.s "A\nakaka"]) [("k", ["x", "y"])]
      = some (.ofList [.s "A\naxaka"])
    ∧ apply_phonological_processes (.ofList [.s "A\nta", .s "B\noki"]) [("k", ["x", "y"])]
      = none := ⟨rfl, rfl, rfl⟩

/--
C9 (code bug): the claim — the embedded-label search aborts fatally iff
the label occurs nowhere in the tree — is what the code intends (its
comment reads "if the element doesn't exist return false", and the
`if result:` guard is only meaningful for a falsy in-subtree failure),
but the code exits the whole program as soon as the element is missing
from the first explored sublist: searching `B` in `[['A','x'], 'B']`
aborts fatally even though `B` occurs in the flattened tree.
-/
theorem c9_dfs_fatal_exit :
    find_embedded_index (.ofList [.l (.ofList [.s "A", .s "x"]), .s "B"]) "B" = none
    ∧ "B" ∈ flattenL (.ofList [.l (.ofList [.s "A", .s "x"]), .s "B"]) := ⟨rfl, by decide⟩

/--
C10: when the lexicalized leaves carry pairwise distinct labels, the
flat phonological word used for rule matching and the fixpoint check
(`get_phonological_word`) equals the left-to-right concatenation of the
leaves' phonological strings and agrees with the final reported word
(`extract_final_derivation`); the morpheme dictionary is keyed by label,
so its keys are always duplicate-free (one phonological string per
label), while the final reported word always concatenates every
lexicalized leaf's phonology.
-/
theorem c10_flat_word_agreement :
    (∀ t : SexpList, ((lexPairs (flattenL t)).map Prod.fst).Nodup →
        get_phonological_word t = extract_final_derivation t)
    ∧ (∀ t : SexpList, ((gpw_fold (flattenL t) [] none).1.map Prod.fst).Nodup)
    ∧ (∀ t : SexpList, extract_final_derivation t
        = joinAll ((lexPairs (flattenL t)).map Prod.snd))
    ∧ (∀ t : SexpList, ((lexPairs (flattenL t)).map Prod.fst).Nodup →
        get_phonological_word t = joinAll ((lexPairs (flattenL t)).map Prod.snd)) := by
  have hgpw : ∀ t : SexpList, ((lexPairs (flattenL t)).map Prod.fst).Nodup →
      get_phonological_word t = joinAll ((lexPairs (flattenL t)).map Prod.snd) := by
    intro t hnd
    rw [get_phonological_word, gpw_fold_fst_eq (flattenL t) [] none (by simp) hnd,
      List.nil_append]
  have hefd : ∀ t : SexpList, extract_final_derivation t
      = joinAll ((lexPairs (flattenL t)).map Prod.snd) := by
    intro t
    rw [extract_final_derivation, efd_fold_eq, String.empty_append]
  exact ⟨fun t hnd => (hgpw t hnd).trans (hefd t).symm,
    fun t => gpw_fold_keys_nodup (flattenL t) [] none (by simp),
    hefd, hgpw⟩

/-- C10 witness: agreement of the two words at a concrete lexicalized tree. -/
theorem c10_witness :
    get_phonological_word (.ofList [.s "S", .s "RED\napa", .l (.ofList [.s "T", .s "root\nta"])])
      = extract_final_derivation
          (.ofList [.s "S", .s "RED\napa", .l (.ofList [.s "T", .s "root\nta"])]) :=
  c10_flat_word_agreement.1
    (.ofList [.s "S", .s "RED\napa", .l (.ofList [.s "T", .s "root\nta"])]) (by decide)

end ParseRedup
